import Mathlib

/-!
Verification development for the JSON Tools structural core (src/app.js).

The embedding models the Tree Value data shape shared by every component
(null, boolean, number, string, ordered list, ordered key-value mapping).
Numbers are modeled as integers: every claim below exercises numbers only
as opaque scalar payloads (equality, stringification of integer literals),
never as floating-point arithmetic, and JavaScript renders integral
doubles in this range exactly as their decimal numerals.

Strings in generated output that contain brace characters write them with
the escapes \x7b and \x7d; apostrophes in string literals are written \x27.
Both denote the ordinary characters.
-/

inductive JValue where
  | null : JValue
  | bool : Bool → JValue
  | num : Int → JValue
  | str : String → JValue
  | arr : List JValue → JValue
  | obj : List (String × JValue) → JValue

/-- JavaScript `typeof` on a tree value (`typeof null` is `"object"`). -/
def typeofJs : JValue → String
  | .null => "object"
  | .bool _ => "boolean"
  | .num _ => "number"
  | .str _ => "string"
  | .arr _ => "object"
  | .obj _ => "object"

/-- `data === null` test. -/
def isNullJ : JValue → Bool
  | .null => true
  | _ => false

/-- JavaScript strict equality `a === b` on tree values.  Scalars compare by
value.  Two container values are compared by reference in JavaScript; the two
trees handed to the differ are materialized separately by the parser, so
container references are always distinct — modeled as `false`.  (Aliased
calls such as `diff(v, v)` short-circuit to no entries in JavaScript; the
model reaches the same output by recursing into structurally equal children,
see the diff-of-equal theorem below, so the model is output-equivalent.) -/
def jsEq : JValue → JValue → Bool
  | .null, .null => true
  | .bool x, .bool y => x == y
  | .num x, .num y => x == y
  | .str x, .str y => x == y
  | _, _ => false

/-- `Object.keys` of the member list of an object. -/
def objKeys (kvs : List (String × JValue)) : List String :=
  kvs.map Prod.fst

/-- JavaScript `key in a` on an object. -/
def hasKey (kvs : List (String × JValue)) (k : String) : Bool :=
  (kvs.lookup k).isSome

/-- Member access `a[key]`; call sites guard with `hasKey`, the default is
never observed. -/
def getVal (kvs : List (String × JValue)) (k : String) : JValue :=
  (kvs.lookup k).getD .null

/-- `[...new Set(xs)]`: removes duplicates keeping the first occurrence,
preserving insertion order, as a JavaScript `Set` does. -/
def dedupKeepFirst : List String → List String
  | [] => []
  | x :: xs => x :: dedupKeepFirst (xs.filter (fun y => y ≠ x))
termination_by l => l.length
decreasing_by
  simp only [List.length_cons]
  exact Nat.lt_succ_of_le (List.length_filter_le _ _)

/-- One reported difference of `jsonDiff` (src/app.js lines 400-451). -/
inductive DiffEntry where
  | changed : String → JValue → JValue → DiffEntry
  | added : String → JValue → DiffEntry
  | removed : String → JValue → DiffEntry

theorem lookup_sizeOf_lt {kvs : List (String × JValue)} {k : String} {v : JValue}
    (h : kvs.lookup k = some v) : sizeOf v < sizeOf kvs := by
  induction kvs with
  | nil => simp [List.lookup] at h
  | cons hd tl ih =>
    rw [List.lookup] at h
    by_cases hk : k == hd.1
    · simp [hk] at h
      subst h
      cases hd with
      | mk a b => simp; omega
    · simp [hk] at h
      have := ih h
      cases hd with
      | mk a b => simp; omega

theorem getVal_sizeOf_lt {kvs : List (String × JValue)} {k : String}
    (h : hasKey kvs k = true) : sizeOf (getVal kvs k) < sizeOf kvs := by
  unfold hasKey at h
  unfold getVal
  cases hl : kvs.lookup k with
  | none => rw [hl] at h; simp at h
  | some v => simp [hl]; exact lookup_sizeOf_lt hl

theorem getD_sizeOf_lt {xs : List JValue} {i : Nat}
    (h : i < xs.length) : sizeOf (xs.getD i .null) < sizeOf xs := by
  rw [List.getD_eq_getElem?_getD, List.getElem?_eq_getElem h]
  simp only [Option.getD_some]
  exact List.sizeOf_lt_of_mem (xs.getElem_mem h)

mutual

/-- The recursive `compare(a, b, p)` inside `jsonDiff` (src/app.js 403-447).
The JavaScript `undefined` branches at lines 409-412 are unreachable here:
`compare` is only ever applied to values that exist on both sides (top-level
call, in-range list indices, keys present in both objects), so an embedded
tree value is never `undefined`. -/
def diffCompare (a b : JValue) (p : String) : List DiffEntry :=
  if jsEq a b then []
  else if isNullJ a || isNullJ b || typeofJs a != typeofJs b || typeofJs a != "object" then
    [.changed p a b]
  else
    match a, b with
    | .arr as, .arr bs => diffArrays as bs p 0
    | .obj akvs, .obj bkvs =>
        diffObjKeys (dedupKeepFirst (objKeys akvs ++ objKeys bkvs)) akvs bkvs p
    | _, _ => [.changed p a b]
termination_by (sizeOf a + sizeOf b, 0)
decreasing_by
  · apply Prod.Lex.left; simp; omega
  · apply Prod.Lex.left; simp; omega

/-- The index loop over two lists (src/app.js 417-428): positions are pushed
in increasing index order up to the longer length. -/
def diffArrays (as bs : List JValue) (p : String) (i : Nat) : List DiffEntry :=
  if i < max as.length bs.length then
    (if as.length ≤ i then [.added (p ++ "[" ++ toString i ++ "]") (bs.getD i .null)]
     else if bs.length ≤ i then [.removed (p ++ "[" ++ toString i ++ "]") (as.getD i .null)]
     else diffCompare (as.getD i .null) (bs.getD i .null) (p ++ "[" ++ toString i ++ "]"))
    ++ diffArrays as bs p (i + 1)
  else []
termination_by (sizeOf as + sizeOf bs, max as.length bs.length - i)
decreasing_by
  · apply Prod.Lex.left
    rename_i h1 h2 h3
    have ha : sizeOf (as.getD i .null) < sizeOf as := getD_sizeOf_lt (by omega)
    have hb : sizeOf (bs.getD i .null) < sizeOf bs := getD_sizeOf_lt (by omega)
    omega
  · apply Prod.Lex.right; omega

/-- The `allKeys.forEach` loop over the key union (src/app.js 436-446). -/
def diffObjKeys : List String → List (String × JValue) → List (String × JValue) →
    String → List DiffEntry
  | [], _, _, _ => []
  | k :: rest, akvs, bkvs, p =>
      (if ¬ hasKey akvs k then [.added (p ++ "." ++ k) (getVal bkvs k)]
       else if ¬ hasKey bkvs k then [.removed (p ++ "." ++ k) (getVal akvs k)]
       else diffCompare (getVal akvs k) (getVal bkvs k) (p ++ "." ++ k))
      ++ diffObjKeys rest akvs bkvs p
termination_by keys akvs bkvs p => (sizeOf akvs + sizeOf bkvs, keys.length)
decreasing_by
  · apply Prod.Lex.left
    rename_i h1 h2
    have ha : sizeOf (getVal akvs k) < sizeOf akvs := getVal_sizeOf_lt (by simpa using h1)
    have hb : sizeOf (getVal bkvs k) < sizeOf bkvs := getVal_sizeOf_lt (by simpa using h2)
    omega
  · apply Prod.Lex.right; simp

end

/-- `jsonDiff(obj1, obj2)` with the default root path `$` (src/app.js 400). -/
def jsonDiff (obj1 obj2 : JValue) : List DiffEntry :=
  diffCompare obj1 obj2 "$"

/-! ### Helper lemmas about the differ -/

theorem mem_dedupKeepFirst {x : String} : ∀ {l : List String},
    x ∈ dedupKeepFirst l → x ∈ l := by
  intro l
  induction l using dedupKeepFirst.induct with
  | case1 => intro h; simp [dedupKeepFirst] at h
  | case2 a as ih =>
    intro h
    rw [dedupKeepFirst] at h
    rcases List.mem_cons.mp h with h1 | h2
    · simp [h1]
    · right; exact List.mem_of_mem_filter (ih h2)

theorem dedupKeepFirst_of_nodup : ∀ {l : List String}, l.Nodup →
    dedupKeepFirst l = l := by
  intro l
  induction l using dedupKeepFirst.induct with
  | case1 => intro _; rw [dedupKeepFirst]
  | case2 a as ih =>
    intro h
    rcases List.nodup_cons.mp h with ⟨ha, has⟩
    rw [dedupKeepFirst]
    have hf : as.filter (fun y => y ≠ a) = as := by
      apply List.filter_eq_self.mpr
      intro b hb
      simp only [ne_eq, decide_eq_true_eq]
      intro hba; exact ha (hba ▸ hb)
    rw [hf] at ih
    rw [hf, ih has]

theorem dedupKeepFirst_append_nodup : ∀ {as : List String} (bs : List String),
    as.Nodup → bs.Nodup →
    dedupKeepFirst (as ++ bs) = as ++ bs.filter (fun b => ¬ (b ∈ as)) := by
  intro as
  induction as with
  | nil =>
    intro bs _ hbs
    simp [dedupKeepFirst_of_nodup hbs]
  | cons a as ih =>
    intro bs ha hbs
    rcases List.nodup_cons.mp ha with ⟨hna, has⟩
    rw [List.cons_append, dedupKeepFirst, List.filter_append]
    have hfa : as.filter (fun y => y ≠ a) = as := by
      apply List.filter_eq_self.mpr
      intro b hb
      simp only [ne_eq, decide_eq_true_eq]
      intro hba; exact hna (hba ▸ hb)
    rw [hfa]
    rw [ih (bs.filter (fun y => y ≠ a)) has (hbs.filter _)]
    rw [List.filter_filter]
    have hcomb : List.filter (fun y => decide (y ∉ as) && decide (y ≠ a)) bs
        = List.filter (fun b => decide (b ∉ a :: as)) bs := by
      apply List.filter_congr
      intro b _
      by_cases hb : b = a <;> by_cases hbs2 : b ∈ as <;> simp [hb, hbs2]
    rw [hcomb]
    rfl

theorem hasKey_iff_mem_objKeys {kvs : List (String × JValue)} {k : String} :
    hasKey kvs k = true ↔ k ∈ objKeys kvs := by
  induction kvs with
  | nil => simp [hasKey, objKeys, List.lookup]
  | cons hd tl ih =>
    cases hd with
    | mk a v =>
      simp only [hasKey, objKeys, List.lookup, List.map_cons, List.mem_cons]
      by_cases hk : k = a
      · subst hk; simp
      · have : (k == a) = false := by simpa using hk
        rw [this]
        simpa [hasKey, objKeys, hk] using ih

/-- `diffObjKeys` visits the given keys in order, emitting the per-key
entries in place. -/
theorem diffObjKeys_eq_flatMap (akvs bkvs : List (String × JValue)) (p : String) :
    ∀ keys : List String, diffObjKeys keys akvs bkvs p =
      keys.flatMap (fun k =>
        if ¬ hasKey akvs k then [.added (p ++ "." ++ k) (getVal bkvs k)]
        else if ¬ hasKey bkvs k then [.removed (p ++ "." ++ k) (getVal akvs k)]
        else diffCompare (getVal akvs k) (getVal bkvs k) (p ++ "." ++ k)) := by
  intro keys
  induction keys with
  | nil => rw [diffObjKeys]; simp
  | cons k rest ih =>
    rw [diffObjKeys, List.flatMap_cons, ih]

/-- Unfolding `diffCompare` on a pair of objects: every guard before the key
union falls through. -/
theorem diffCompare_obj_obj (akvs bkvs : List (String × JValue)) (p : String) :
    diffCompare (.obj akvs) (.obj bkvs) p =
      diffObjKeys (dedupKeepFirst (objKeys akvs ++ objKeys bkvs)) akvs bkvs p := by
  rw [diffCompare]
  simp [jsEq, isNullJ, typeofJs]

/-- Unfolding `diffCompare` on a pair of lists: every guard before the index
loop falls through. -/
theorem diffCompare_arr_arr (as bs : List JValue) (p : String) :
    diffCompare (.arr as) (.arr bs) p = diffArrays as bs p 0 := by
  rw [diffCompare]
  simp [jsEq, isNullJ, typeofJs]

theorem diffArrays_eq_range' (as bs : List JValue) (p : String) :
    ∀ n i, max as.length bs.length - i = n →
      diffArrays as bs p i = (List.range' i n).flatMap (fun j =>
        if as.length ≤ j then [.added (p ++ "[" ++ toString j ++ "]") (bs.getD j .null)]
        else if bs.length ≤ j then [.removed (p ++ "[" ++ toString j ++ "]") (as.getD j .null)]
        else diffCompare (as.getD j .null) (bs.getD j .null) (p ++ "[" ++ toString j ++ "]")) := by
  intro n
  induction n with
  | zero =>
    intro i hi
    rw [diffArrays]
    have : ¬ i < max as.length bs.length := by omega
    simp [this]
  | succ n ih =>
    intro i hi
    rw [diffArrays]
    have hlt : i < max as.length bs.length := by omega
    rw [if_pos hlt, List.range'_succ, List.flatMap_cons, ih (i + 1) (by omega)]

theorem flatMap_congr_mem {α β : Type} {l : List α} {f g : α → List β}
    (h : ∀ a ∈ l, f a = g a) : l.flatMap f = l.flatMap g := by
  induction l with
  | nil => rfl
  | cons x xs ih =>
    rw [List.flatMap_cons, List.flatMap_cons, h x (by simp),
      ih (fun a ha => h a (by simp [ha]))]

theorem flatMap_singleton_eq_map {α β : Type} (l : List α) (g : α → β) :
    l.flatMap (fun a => [g a]) = l.map g := by
  induction l with
  | nil => rfl
  | cons x xs ih => rw [List.flatMap_cons, ih]; rfl

theorem diffArrays_self (xs : List JValue) (p : String)
    (H : ∀ x, sizeOf x < sizeOf xs → ∀ q, diffCompare x x q = []) :
    ∀ k i, xs.length - i ≤ k → diffArrays xs xs p i = [] := by
  intro k
  induction k with
  | zero =>
    intro i hi
    rw [diffArrays]
    have : ¬ i < max xs.length xs.length := by omega
    rw [if_neg this]
  | succ k ih =>
    intro i hi
    rw [diffArrays]
    by_cases hlt : i < max xs.length xs.length
    · have hi2 : i < xs.length := by omega
      have hle : ¬ xs.length ≤ i := by omega
      rw [if_pos hlt, if_neg hle, if_neg hle,
        H (xs.getD i .null) (getD_sizeOf_lt hi2) _, ih (i + 1) (by omega)]
      rfl
    · rw [if_neg hlt]

theorem diffObjKeys_self (kvs : List (String × JValue)) (p : String)
    (H : ∀ x, sizeOf x < sizeOf kvs → ∀ q, diffCompare x x q = []) :
    ∀ keys, (∀ k ∈ keys, hasKey kvs k = true) → diffObjKeys keys kvs kvs p = [] := by
  intro keys
  induction keys with
  | nil => intro _; rw [diffObjKeys]
  | cons k rest ih =>
    intro hk
    have h1 : hasKey kvs k = true := hk k (by simp)
    rw [diffObjKeys]
    rw [if_neg (by simp [h1]), if_neg (by simp [h1]),
      H (getVal kvs k) (getVal_sizeOf_lt h1) _,
      ih (fun a ha => hk a (by simp [ha]))]
    rfl

theorem diffCompare_self_aux : ∀ n, ∀ v : JValue, sizeOf v ≤ n → ∀ p,
    diffCompare v v p = [] := by
  intro n
  induction n using Nat.strong_induction_on with
  | _ n ih =>
    intro v hv p
    cases v with
    | null =>
      rw [diffCompare, if_pos (show jsEq .null .null = true by rfl)] <;>
        exact fun _ _ h _ => JValue.noConfusion h
    | bool b =>
      rw [diffCompare, if_pos (show jsEq (.bool b) (.bool b) = true by simp [jsEq])] <;>
        exact fun _ _ h _ => JValue.noConfusion h
    | num m =>
      rw [diffCompare, if_pos (show jsEq (.num m) (.num m) = true by simp [jsEq])] <;>
        exact fun _ _ h _ => JValue.noConfusion h
    | str s =>
      rw [diffCompare, if_pos (show jsEq (.str s) (.str s) = true by simp [jsEq])] <;>
        exact fun _ _ h _ => JValue.noConfusion h
    | arr xs =>
      rw [diffCompare_arr_arr]
      refine diffArrays_self xs p ?_ xs.length 0 (by omega)
      intro x hx q
      have hsz : sizeOf x < n := by
        have : sizeOf (JValue.arr xs) = 1 + sizeOf xs := by simp
        omega
      exact ih (sizeOf x) hsz x le_rfl q
    | obj kvs =>
      rw [diffCompare_obj_obj]
      refine diffObjKeys_self kvs p ?_ _ ?_
      · intro x hx q
        have hsz : sizeOf x < n := by
          have : sizeOf (JValue.obj kvs) = 1 + sizeOf kvs := by simp
          omega
        exact ih (sizeOf x) hsz x le_rfl q
      · intro k hk
        have := mem_dedupKeepFirst hk
        rcases List.mem_append.mp this with h | h
        · exact hasKey_iff_mem_objKeys.mpr h
        · exact hasKey_iff_mem_objKeys.mpr h

/-! ### Claim theorems about the differ -/

/-- C1: for every pair of Object tree values, the differ visits the union of
their keys deterministically — all keys of the left object in insertion
order first (recursing where the key is shared, emitting `Removed` where it
is left-only), then the keys present only in the right object in its
insertion order, emitted as `Added` — and in particular
`diff(\x7b"a":1\x7d, \x7b"b":1\x7d)` is exactly
`[Removed $.a 1, Added $.b 1]` in that order. -/
theorem differ_object_key_union_order
    (akvs bkvs : List (String × JValue)) (p : String)
    (ha : (objKeys akvs).Nodup) (hb : (objKeys bkvs).Nodup) :
    (diffCompare (.obj akvs) (.obj bkvs) p =
      ((objKeys akvs).flatMap (fun k =>
          if hasKey bkvs k then
            diffCompare (getVal akvs k) (getVal bkvs k) (p ++ "." ++ k)
          else [.removed (p ++ "." ++ k) (getVal akvs k)])
        ++ ((objKeys bkvs).filter (fun k => ¬ (k ∈ objKeys akvs))).map
            (fun k => .added (p ++ "." ++ k) (getVal bkvs k))))
    ∧ jsonDiff (.obj [("a", .num 1)]) (.obj [("b", .num 1)])
        = [.removed "$.a" (.num 1), .added "$.b" (.num 1)] := by
  constructor
  · rw [diffCompare_obj_obj, dedupKeepFirst_append_nodup _ ha hb,
      diffObjKeys_eq_flatMap, List.flatMap_append]
    congr 1
    · apply flatMap_congr_mem
      intro k hk
      have h1 : hasKey akvs k = true := hasKey_iff_mem_objKeys.mpr hk
      rw [if_neg (by simp [h1])]
      by_cases h2 : hasKey bkvs k = true
      · rw [if_neg (by simp [h2]), if_pos h2]
      · rw [if_pos (by simpa using h2), if_neg (by simpa using h2)]
    · rw [← flatMap_singleton_eq_map]
      apply flatMap_congr_mem
      intro k hk
      have h2 := List.of_mem_filter hk
      have h3 : k ∉ objKeys akvs := by simpa using h2
      have h1 : hasKey akvs k = false := by
        cases h : hasKey akvs k
        · rfl
        · exact absurd (hasKey_iff_mem_objKeys.mp h) h3
      rw [if_pos (by simp [h1])]
  · rw [jsonDiff, diffCompare_obj_obj]
    have e1 : objKeys [("a", JValue.num 1)] ++ objKeys [("b", JValue.num 1)] = ["a", "b"] := rfl
    rw [e1, dedupKeepFirst_of_nodup (by simp)]
    rw [diffObjKeys, diffObjKeys, diffObjKeys]
    rfl

/-- Witness for the object key-union theorem: its Nodup hypotheses hold at
the concrete object pair from the example of the claim, and the conclusion follows
by applying the theorem there. -/
theorem differ_object_key_union_order_witness :
    (objKeys [("a", JValue.num 1)]).Nodup ∧ (objKeys [("b", JValue.num 1)]).Nodup ∧
    jsonDiff (.obj [("a", .num 1)]) (.obj [("b", .num 1)])
      = [.removed "$.a" (.num 1), .added "$.b" (.num 1)] :=
  ⟨by decide, by decide,
    (differ_object_key_union_order [("a", .num 1)] [("b", .num 1)] "$"
      (by decide) (by decide)).2⟩

/-- C5: diffing any tree value against itself — and hence any pair of deeply
equal tree values, which the value-based embedding identifies — produces the
empty sequence of diff entries, at every starting path. -/
theorem diff_of_deeply_equal_trees_is_empty :
    (∀ (v : JValue) (p : String), diffCompare v v p = []) ∧
    (∀ v : JValue, jsonDiff v v = []) := by
  have main : ∀ (v : JValue) (p : String), diffCompare v v p = [] :=
    fun v p => diffCompare_self_aux (sizeOf v) v le_rfl p
  exact ⟨main, fun v => main v "$"⟩

/-- C6: on a pair of lists the differ compares purely positionally,
index-by-index from 0 up to the longer length: an index beyond the left
length yields `Added` of the right element at `path[index]`, an index beyond
the right length yields `Removed` of the left element, and an index present
on both sides recurses on the element pair, with no reordering or alignment
of elements. -/
theorem differ_list_positional_comparison :
    ∀ (as bs : List JValue) (p : String),
      diffCompare (.arr as) (.arr bs) p =
        (List.range (max as.length bs.length)).flatMap (fun i =>
          if as.length ≤ i then [.added (p ++ "[" ++ toString i ++ "]") (bs.getD i .null)]
          else if bs.length ≤ i then [.removed (p ++ "[" ++ toString i ++ "]") (as.getD i .null)]
          else diffCompare (as.getD i .null) (bs.getD i .null) (p ++ "[" ++ toString i ++ "]")) := by
  intro as bs p
  rw [diffCompare_arr_arr, List.range_eq_range']
  exact diffArrays_eq_range' as bs p (max as.length bs.length) 0 (by omega)

/-! ### Statistics collector (src/app.js 137-157) -/

/-- The record returned by `getJSONStats`; field names follow the source. -/
structure JStats where
  keys : Nat
  depth : Nat
  arrays : Nat
  objects : Nat
  values : Nat

/-- The statement `if (d > depth) depth = d;` run at every visited node. -/
def statsBump (d : Nat) (s : JStats) : JStats :=
  if d > s.depth then { s with depth := d } else s

mutual

/-- The inner `traverse(obj, d)` of `getJSONStats`, with the five mutable
counters threaded as explicit state.  The four scalar constructors all take
the `else` branch of the source and are spelled out so that each match arm
is unconditional. -/
def statsTraverse (v : JValue) (d : Nat) (s : JStats) : JStats :=
  let s0 := statsBump d s
  match v with
  | .arr xs => statsTraverseL xs (d + 1) { s0 with arrays := s0.arrays + 1 }
  | .obj kvs =>
      statsTraverseF kvs (d + 1)
        { s0 with objects := s0.objects + 1, keys := s0.keys + kvs.length }
  | .null => { s0 with values := s0.values + 1 }
  | .bool _ => { s0 with values := s0.values + 1 }
  | .num _ => { s0 with values := s0.values + 1 }
  | .str _ => { s0 with values := s0.values + 1 }

/-- `obj.forEach(item => traverse(item, d + 1))`. -/
def statsTraverseL : List JValue → Nat → JStats → JStats
  | [], _, s => s
  | x :: xs, d, s => statsTraverseL xs d (statsTraverse x d s)

/-- `k.forEach(key => traverse(obj[key], d + 1))` over the member values in
insertion order. -/
def statsTraverseF : List (String × JValue) → Nat → JStats → JStats
  | [], _, s => s
  | (_, v) :: kvs, d, s => statsTraverseF kvs d (statsTraverse v d s)

end

/-- `getJSONStats(data)`: counters start at zero, the root is visited at
depth 0. -/
def getJSONStats (v : JValue) : JStats :=
  statsTraverse v 0 ⟨0, 0, 0, 0, 0⟩

/-! Reference recursion of the claim: per-quantity counts of the specified
single-pass traversal, written independently of the accumulator threading. -/

mutual

/-- Number of List nodes in a tree value. -/
def arrayCount : JValue → Nat
  | .arr xs => 1 + arrayCountL xs
  | .obj kvs => arrayCountF kvs
  | _ => 0

def arrayCountL : List JValue → Nat
  | [] => 0
  | x :: xs => arrayCount x + arrayCountL xs

def arrayCountF : List (String × JValue) → Nat
  | [] => 0
  | (_, v) :: kvs => arrayCount v + arrayCountF kvs

end

mutual

/-- Number of Object nodes in a tree value. -/
def objectCount : JValue → Nat
  | .arr xs => objectCountL xs
  | .obj kvs => 1 + objectCountF kvs
  | _ => 0

def objectCountL : List JValue → Nat
  | [] => 0
  | x :: xs => objectCount x + objectCountL xs

def objectCountF : List (String × JValue) → Nat
  | [] => 0
  | (_, v) :: kvs => objectCount v + objectCountF kvs

end

mutual

/-- Sum over all Object nodes of their member counts. -/
def keyCount : JValue → Nat
  | .arr xs => keyCountL xs
  | .obj kvs => kvs.length + keyCountF kvs
  | _ => 0

def keyCountL : List JValue → Nat
  | [] => 0
  | x :: xs => keyCount x + keyCountL xs

def keyCountF : List (String × JValue) → Nat
  | [] => 0
  | (_, v) :: kvs => keyCount v + keyCountF kvs

end

mutual

/-- Number of scalar (Null/Bool/Number/String) nodes in a tree value. -/
def scalarValueCount : JValue → Nat
  | .arr xs => scalarValueCountL xs
  | .obj kvs => scalarValueCountF kvs
  | _ => 1

def scalarValueCountL : List JValue → Nat
  | [] => 0
  | x :: xs => scalarValueCount x + scalarValueCountL xs

def scalarValueCountF : List (String × JValue) → Nat
  | [] => 0
  | (_, v) :: kvs => scalarValueCount v + scalarValueCountF kvs

end

mutual

/-- Maximum depth value over all visited nodes when the given node sits at
depth `d` (children of a container sit at `d + 1`); the depth of the node itself is
always included. -/
def maxDepthFrom : JValue → Nat → Nat
  | .arr xs, d => max d (maxDepthFromL xs (d + 1))
  | .obj kvs, d => max d (maxDepthFromF kvs (d + 1))
  | _, d => d

def maxDepthFromL : List JValue → Nat → Nat
  | [], _ => 0
  | x :: xs, d => max (maxDepthFrom x d) (maxDepthFromL xs d)

def maxDepthFromF : List (String × JValue) → Nat → Nat
  | [], _ => 0
  | (_, v) :: kvs, d => max (maxDepthFrom v d) (maxDepthFromF kvs d)

end

theorem statsBump_eq (d : Nat) (s : JStats) :
    statsBump d s = ⟨s.keys, max s.depth d, s.arrays, s.objects, s.values⟩ := by
  rw [statsBump]
  by_cases h : d > s.depth
  · rw [if_pos h]; cases s; simp_all; all_goals omega
  · rw [if_neg h]; cases s; simp_all; all_goals omega

mutual

theorem statsTraverse_eq (v : JValue) (d : Nat) (s : JStats) :
    statsTraverse v d s =
      ⟨s.keys + keyCount v, max s.depth (maxDepthFrom v d),
       s.arrays + arrayCount v, s.objects + objectCount v,
       s.values + scalarValueCount v⟩ := by
  cases v with
  | null =>
    simp [statsTraverse, statsBump_eq, keyCount, maxDepthFrom, arrayCount,
      objectCount, scalarValueCount]
  | bool b =>
    simp [statsTraverse, statsBump_eq, keyCount, maxDepthFrom, arrayCount,
      objectCount, scalarValueCount]
  | num m =>
    simp [statsTraverse, statsBump_eq, keyCount, maxDepthFrom, arrayCount,
      objectCount, scalarValueCount]
  | str t =>
    simp [statsTraverse, statsBump_eq, keyCount, maxDepthFrom, arrayCount,
      objectCount, scalarValueCount]
  | arr xs =>
    rw [statsTraverse, statsBump_eq, statsTraverseL_eq xs (d + 1)]
    simp [keyCount, maxDepthFrom, arrayCount, objectCount, scalarValueCount]
    all_goals omega
  | obj kvs =>
    rw [statsTraverse, statsBump_eq, statsTraverseF_eq kvs (d + 1)]
    simp [keyCount, maxDepthFrom, arrayCount, objectCount, scalarValueCount]
    all_goals omega

theorem statsTraverseL_eq (xs : List JValue) (d : Nat) (s : JStats) :
    statsTraverseL xs d s =
      ⟨s.keys + keyCountL xs, max s.depth (maxDepthFromL xs d),
       s.arrays + arrayCountL xs, s.objects + objectCountL xs,
       s.values + scalarValueCountL xs⟩ := by
  cases xs with
  | nil =>
    rw [statsTraverseL]
    simp [keyCountL, maxDepthFromL, arrayCountL, objectCountL, scalarValueCountL]
  | cons x xs =>
    rw [statsTraverseL, statsTraverse_eq x d s, statsTraverseL_eq xs d]
    simp [keyCountL, maxDepthFromL, arrayCountL, objectCountL, scalarValueCountL]
    all_goals omega

theorem statsTraverseF_eq (kvs : List (String × JValue)) (d : Nat) (s : JStats) :
    statsTraverseF kvs d s =
      ⟨s.keys + keyCountF kvs, max s.depth (maxDepthFromF kvs d),
       s.arrays + arrayCountF kvs, s.objects + objectCountF kvs,
       s.values + scalarValueCountF kvs⟩ := by
  cases kvs with
  | nil =>
    rw [statsTraverseF]
    simp [keyCountF, maxDepthFromF, arrayCountF, objectCountF, scalarValueCountF]
  | cons kv kvs =>
    cases kv with
    | mk k v =>
      rw [statsTraverseF, statsTraverse_eq v d s, statsTraverseF_eq kvs d]
      simp [keyCountF, maxDepthFromF, arrayCountF, objectCountF, scalarValueCountF]
      all_goals omega

end

/-- C7: `getJSONStats` returns exactly the counts of the reference recursion
with the root at depth 0: each List node contributes 1 to `arrays` and
recurses into its elements at depth + 1, each Object node contributes 1 to
`objects` and its member count to `keys` and recurses into its member values
at depth + 1, each scalar node contributes 1 to `values` and does not
recurse, and `depth` is the maximum depth over all visited nodes including
the depth of the root itself. -/
theorem stats_reference_recursion (v : JValue) :
    getJSONStats v =
      ⟨keyCount v, maxDepthFrom v 0, arrayCount v, objectCount v,
       scalarValueCount v⟩ := by
  rw [getJSONStats, statsTraverse_eq]
  simp


/-! ### Parser diagnostics (src/app.js 115-134) -/

/-- The error object `\x7b message, line, col \x7d`; JavaScript `null`
line/col are modeled as `none`. -/
structure ParseErr where
  message : String
  line : Option Nat
  col : Option Nat

/-- The result object `\x7b success, data, error \x7d` of `parseJSON`. -/
structure ParseResult where
  success : Bool
  data : Option JValue
  error : Option ParseErr

/-- Outcome of the host `JSON.parse` call, an external collaborator of the
core: either a tree value, or an exception message together with the byte
offset extracted from that message by the `/position\s+(\d+)/i` match, when
one is present. -/
inductive HostParse where
  | ok : JValue → HostParse
  | fail : String → Option Nat → HostParse

/-- JavaScript `text.split('\n')` on a list of characters: the list of
newline-separated segments (always nonempty). -/
def splitNl : List Char → List (List Char)
  | [] => [[]]
  | c :: rest =>
      if c = '\n' then [] :: splitNl rest
      else
        match splitNl rest with
        | p :: ps => (c :: p) :: ps
        | [] => [[c]]

/-- `parseJSON(text)` (src/app.js 115-134), parameterized by the host
`JSON.parse` outcome.  On failure with a determinable offset it takes the
prefix of the input up to that offset (`substring` clamps at the end), splits
it on newlines, and reports `line` as the number of segments and `col` as
the length of the last segment plus 1; with no determinable offset both stay
`null`.  In every case the failure is returned as a value, never thrown. -/
def parseJSON (text : String) (outcome : HostParse) : ParseResult :=
  match outcome with
  | .ok v => ⟨true, some v, none⟩
  | .fail msg pos? =>
      match pos? with
      | some pos =>
          let lines := splitNl (text.data.take pos)
          ⟨false, none, some ⟨msg, some lines.length, some ((lines.getLastD []).length + 1)⟩⟩
      | none => ⟨false, none, some ⟨msg, none, none⟩⟩

/-- Claim side: the 1-indexed count of newline-delimited rows of a prefix is
one more than its newline count. -/
def rowsOfPrefix (l : List Char) : Nat :=
  l.count '\n' + 1

/-- Claim side: the offset of the failure position from the last newline
before it — a running counter over the prefix that a newline resets to 0 and
every other character advances, i.e. the number of characters of the prefix
strictly after its last newline. -/
def offsetFromLastNl (l : List Char) : Nat :=
  l.foldl (fun acc c => if c = '\n' then 0 else acc + 1) 0

theorem splitNl_ne_nil : ∀ l : List Char, splitNl l ≠ [] := by
  intro l
  cases l with
  | nil => simp [splitNl]
  | cons c rest =>
    rw [splitNl]
    by_cases h : c = '\n'
    · simp [h]
    · rw [if_neg h]
      cases hs : splitNl rest with
      | nil => simp
      | cons p ps => simp

theorem splitNl_length (l : List Char) :
    (splitNl l).length = l.count '\n' + 1 := by
  induction l with
  | nil => rw [splitNl]; simp
  | cons c rest ih =>
    rw [splitNl]
    by_cases h : c = '\n'
    · rw [if_pos h, List.length_cons, ih, List.count_cons]
      simp [h]
    · rw [if_neg h]
      cases hs : splitNl rest with
      | nil => exact absurd hs (splitNl_ne_nil rest)
      | cons p ps =>
        rw [List.count_cons]
        have hc : (c == '\n') = false := by simpa using h
        rw [hc]
        rw [hs] at ih
        simpa using ih

theorem splitNl_of_no_nl {l : List Char} (h : '\n' ∉ l) : splitNl l = [l] := by
  induction l with
  | nil => rw [splitNl]
  | cons c rest ih =>
    rw [splitNl]
    have hc : c ≠ '\n' := fun he => h (by simp [he])
    rw [if_neg hc, ih (fun hm => h (by simp [hm]))]

theorem getLastD_of_ne_nil {α : Type} {l : List α} (h : l ≠ []) (a b : α) :
    l.getLastD a = l.getLastD b := by
  rw [List.getLastD_eq_getLast?, List.getLastD_eq_getLast?]
  cases hl : l.getLast? with
  | none => exact absurd (List.getLast?_eq_none_iff.mp hl) h
  | some x => simp

theorem offsetFromLastNl_spec : ∀ (l : List Char) (acc : Nat),
    l.foldl (fun acc c => if c = '\n' then 0 else acc + 1) acc =
      (if l.count '\n' = 0 then acc + l.length
       else ((splitNl l).getLastD []).length) := by
  intro l
  induction l with
  | nil => intro acc; simp
  | cons c rest ih =>
    intro acc
    rw [List.foldl_cons]
    by_cases h : c = '\n'
    · rw [if_pos h, ih 0]
      have hcount : (c :: rest).count '\n' ≠ 0 := by
        rw [List.count_cons]
        simp [h]
      rw [if_neg hcount]
      have hsplit : splitNl (c :: rest) = [] :: splitNl rest := by
        rw [splitNl, if_pos h]
      rw [hsplit]
      have hlast : ([] :: splitNl rest).getLastD ([] : List Char)
          = (splitNl rest).getLastD [] := List.getLastD_cons _ _ _
      rw [hlast]
      by_cases hr : rest.count '\n' = 0
      · rw [if_pos hr]
        have : splitNl rest = [rest] := splitNl_of_no_nl (List.count_eq_zero.mp hr)
        rw [this]
        simp
      · rw [if_neg hr]
    · rw [if_neg h, ih (acc + 1)]
      have hc : (c == '\n') = false := by simpa using h
      have hcount : (c :: rest).count '\n' = rest.count '\n' := by
        rw [List.count_cons, hc]
        simp
      rw [hcount]
      by_cases hr : rest.count '\n' = 0
      · rw [if_pos hr, if_pos hr]
        simp
        omega
      · rw [if_neg hr, if_neg hr]
        cases hs : splitNl rest with
        | nil => exact absurd hs (splitNl_ne_nil rest)
        | cons p ps =>
          have hps : ps ≠ [] := by
            have hlen := splitNl_length rest
            rw [hs] at hlen
            intro he
            rw [he] at hlen
            simp at hlen
            omega
          have hsplit : splitNl (c :: rest) = (c :: p) :: ps := by
            rw [splitNl, if_neg h, hs]
          rw [hsplit, List.getLastD_cons, List.getLastD_cons,
            getLastD_of_ne_nil hps (c :: p) p]

/-- C3: on every parse failure with a determinable failure offset, the error
carries `line` equal to the 1-indexed count of newline-delimited rows in the
input prefix up to that offset and `col` equal to the offset from the last
newline before the failure plus 1; when no offset can be determined both are
unknown (`none`, not zero); and in all cases the failure is a returned value
of `parseJSON` (success flag false), never a thrown fault. -/
theorem parse_error_line_column (text : String) (msg : String) (pos : Nat) :
    parseJSON text (.fail msg (some pos)) =
      ⟨false, none, some ⟨msg, some (rowsOfPrefix (text.data.take pos)),
        some (offsetFromLastNl (text.data.take pos) + 1)⟩⟩
    ∧ parseJSON text (.fail msg none) = ⟨false, none, some ⟨msg, none, none⟩⟩ := by
  constructor
  · simp only [parseJSON]
    have h1 : (splitNl (text.data.take pos)).length = rowsOfPrefix (text.data.take pos) := by
      rw [splitNl_length, rowsOfPrefix]
    have h2 : ((splitNl (text.data.take pos)).getLastD []).length
        = offsetFromLastNl (text.data.take pos) := by
      rw [offsetFromLastNl, offsetFromLastNl_spec]
      by_cases hr : (text.data.take pos).count '\n' = 0
      · rw [if_pos hr, splitNl_of_no_nl (List.count_eq_zero.mp hr)]
        simp
      · rw [if_neg hr]
    rw [h1, h2]
  · simp only [parseJSON]

/-! ### XML transcoder (src/app.js 307-342) -/

/-- One character of the text-content escape chain
`.replace(/&/g,"&amp;").replace(/</g,"&lt;").replace(/>/g,"&gt;")`.
The chain is realized as a single character-wise pass: the replacements of the first
pass introduce no `<` or `>`, and the later passes introduce no new
`&` before an earlier pass could see it, so the sequential global passes and
the single pass produce the same text. -/
def xmlEscapeChar (c : Char) : List Char :=
  if c = '&' then "&amp;".data
  else if c = '<' then "&lt;".data
  else if c = '>' then "&gt;".data
  else [c]

def xmlEscape (s : String) : String :=
  String.mk (s.data.flatMap xmlEscapeChar)

/-- JavaScript `String(data)` / template interpolation of a tree value.
Both transcoder call sites are guarded so that only `null` and the scalar
constructors ever reach this; the container results are immaterial
(unreachable) and left empty. -/
def jsToString : JValue → String
  | .null => "null"
  | .bool b => if b then "true" else "false"
  | .num n => toString n
  | .str s => s
  | .arr _ => ""
  | .obj _ => ""

/-- `true` on the values the transcoder treats as scalars: everything that
is neither a List nor an Object (`null` included). -/
def isScalarJ : JValue → Bool
  | .arr _ => false
  | .obj _ => false
  | _ => true

/-- The two-space indent unit repeated `level` times (the `repeat` call of
the source). -/
def indentPad (level : Nat) : String :=
  String.join (List.replicate level "  ")

/-- The scalar text of the inner `convert`:
`data === null ? '' : String(data).replace(...)`. -/
def xmlScalarText (v : JValue) : String :=
  if isNullJ v then "" else xmlEscape (jsToString v)

/-- The scalar emission of the inner `convert`:
`xml += ${pad}<${tag}>${val}</${tag}>\n`. -/
def xmlScalarChunk (v : JValue) (tag : String) (level : Nat) : String :=
  indentPad level ++ "<" ++ tag ++ ">" ++ xmlScalarText v ++ "</" ++ tag ++ ">\n"

mutual

/-- The inner `convert(data, tag, level)` of `jsonToXml` (src/app.js
311-325), returning the text it appends: a List repeats the current tag for
each element at the same level, an Object opens and closes an element named
by the tag and emits one child per member named by the key at level + 1, and
a scalar emits one escaped element (the four scalar constructors are spelled
out so every match arm is unconditional). -/
def xmlConvert (data : JValue) (tag : String) (level : Nat) : String :=
  match data with
  | .arr xs => xmlConvertList xs tag level
  | .obj kvs =>
      indentPad level ++ "<" ++ tag ++ ">\n"
        ++ xmlConvertFields kvs (level + 1)
        ++ indentPad level ++ "</" ++ tag ++ ">\n"
  | .null => xmlScalarChunk .null tag level
  | .bool b => xmlScalarChunk (.bool b) tag level
  | .num n => xmlScalarChunk (.num n) tag level
  | .str s => xmlScalarChunk (.str s) tag level

def xmlConvertList : List JValue → String → Nat → String
  | [], _, _ => ""
  | x :: xs, tag, level => xmlConvert x tag level ++ xmlConvertList xs tag level

def xmlConvertFields : List (String × JValue) → Nat → String
  | [], _ => ""
  | (k, v) :: kvs, level => xmlConvert v k level ++ xmlConvertFields kvs level

end

/-- `jsonToXml(obj, rootName)` (src/app.js 308-342): the declaration header,
then a root element; a top-level List emits repeated `item` children, a
top-level Object one child per member, and any other root value is
interpolated directly into the root element on one line. -/
def jsonToXml (obj : JValue) (rootName : String) : String :=
  "<?xml version=\"1.0\" encoding=\"UTF-8\"?>\n"
    ++ match obj with
      | .arr xs => "<" ++ rootName ++ ">\n" ++ xmlConvertList xs "item" 1
          ++ "</" ++ rootName ++ ">\n"
      | .obj kvs => "<" ++ rootName ++ ">\n" ++ xmlConvertFields kvs 1
          ++ "</" ++ rootName ++ ">\n"
      | .null => "<" ++ rootName ++ ">" ++ jsToString .null ++ "</" ++ rootName ++ ">\n"
      | .bool b => "<" ++ rootName ++ ">" ++ jsToString (.bool b) ++ "</" ++ rootName ++ ">\n"
      | .num n => "<" ++ rootName ++ ">" ++ jsToString (.num n) ++ "</" ++ rootName ++ ">\n"
      | .str s => "<" ++ rootName ++ ">" ++ jsToString (.str s) ++ "</" ++ rootName ++ ">\n"

theorem xmlEscapeChar_no_angle (c : Char) :
    ∀ x ∈ xmlEscapeChar c, x ≠ '<' ∧ x ≠ '>' := by
  intro x hx
  rw [xmlEscapeChar] at hx
  by_cases h1 : c = '&'
  · rw [if_pos h1] at hx
    have hx2 : x ∈ ['&', 'a', 'm', 'p', ';'] := hx
    fin_cases hx2 <;> decide
  · rw [if_neg h1] at hx
    by_cases h2 : c = '<'
    · rw [if_pos h2] at hx
      have hx2 : x ∈ ['&', 'l', 't', ';'] := hx
      fin_cases hx2 <;> decide
    · rw [if_neg h2] at hx
      by_cases h3 : c = '>'
      · rw [if_pos h3] at hx
        have hx2 : x ∈ ['&', 'g', 't', ';'] := hx
        fin_cases hx2 <;> decide
      · rw [if_neg h3] at hx
        simp at hx
        subst hx
        exact ⟨h2, h3⟩

/-- C2 counterexample: the claim asserts every scalar — including a scalar
root — is emitted with text content escaped for `&`, `<`, `>` and with a
null scalar rendered as empty content.  At the concrete root inputs below
the root branch of the transcoder interpolates the scalar without escaping: a
null root renders the text `null` (not empty), and a root string keeps a raw
`<` in the element content. -/
theorem xml_root_scalar_counterexample :
    jsonToXml .null "root"
        = "<?xml version=\"1.0\" encoding=\"UTF-8\"?>\n<root>null</root>\n"
    ∧ jsonToXml .null "root"
        ≠ "<?xml version=\"1.0\" encoding=\"UTF-8\"?>\n<root></root>\n"
    ∧ jsonToXml (.str "a<b") "root"
        = "<?xml version=\"1.0\" encoding=\"UTF-8\"?>\n<root>a<b</root>\n" := by
  refine ⟨rfl, by decide, rfl⟩

/-- C2 amended: every scalar node emitted by the recursive converter — that
is, every scalar except a scalar at the root — is emitted as
`<tag>value</tag>` with its text content escaped for `&`, `<`, `>` (the
escaped text contains no raw angle bracket) and a null scalar with empty
text content; a scalar at the root, however, is interpolated into the root
element without escaping, a null root rendering as the text `null`. -/
theorem xml_scalar_escaping_amended :
    (∀ (v : JValue) (tag : String) (level : Nat), isScalarJ v = true →
      xmlConvert v tag level =
        indentPad level ++ "<" ++ tag ++ ">" ++ xmlScalarText v ++ "</" ++ tag ++ ">\n"
      ∧ (v = .null → xmlScalarText v = ""))
    ∧ (∀ (s : String), ∀ c ∈ (xmlEscape s).data, c ≠ '<' ∧ c ≠ '>')
    ∧ (∀ (v : JValue) (name : String), isScalarJ v = true →
        jsonToXml v name = "<?xml version=\"1.0\" encoding=\"UTF-8\"?>\n"
          ++ ("<" ++ name ++ ">" ++ jsToString v ++ "</" ++ name ++ ">\n")) := by
  refine ⟨?_, ?_, ?_⟩
  · intro v tag level hv
    cases v with
    | arr xs => simp [isScalarJ] at hv
    | obj kvs => simp [isScalarJ] at hv
    | null =>
      refine ⟨?_, fun _ => by rw [xmlScalarText]; rw [if_pos (by rw [isNullJ])]⟩
      rw [xmlConvert, xmlScalarChunk]
    | bool b => refine ⟨by rw [xmlConvert, xmlScalarChunk], fun h => by cases h⟩
    | num n => refine ⟨by rw [xmlConvert, xmlScalarChunk], fun h => by cases h⟩
    | str s => refine ⟨by rw [xmlConvert, xmlScalarChunk], fun h => by cases h⟩
  · intro s c hc
    rw [xmlEscape] at hc
    have hc2 : c ∈ s.data.flatMap xmlEscapeChar := hc
    rcases List.mem_flatMap.mp hc2 with ⟨x, _, hcx⟩
    exact xmlEscapeChar_no_angle x c hcx
  · intro v name hv
    cases v with
    | arr xs => simp [isScalarJ] at hv
    | obj kvs => simp [isScalarJ] at hv
    | null => rw [jsonToXml]
    | bool b => rw [jsonToXml]
    | num n => rw [jsonToXml]
    | str s => rw [jsonToXml]

/-- Witness for the amended scalar-escaping theorem at concrete inputs. -/
theorem xml_scalar_escaping_amended_witness :
    isScalarJ (.str "x<y") = true ∧
    (xmlConvert (.str "x<y") "t" 1 =
        indentPad 1 ++ "<" ++ "t" ++ ">" ++ xmlScalarText (.str "x<y")
          ++ "</" ++ "t" ++ ">\n"
      ∧ (JValue.str "x<y" = .null → xmlScalarText (.str "x<y") = "")) ∧
    jsonToXml (.bool true) "root" = "<?xml version=\"1.0\" encoding=\"UTF-8\"?>\n"
      ++ ("<" ++ "root" ++ ">" ++ jsToString (.bool true) ++ "</" ++ "root" ++ ">\n") :=
  ⟨by decide,
    xml_scalar_escaping_amended.1 (.str "x<y") "t" 1 (by decide),
    xml_scalar_escaping_amended.2.2 (.bool true) "root" (by decide)⟩

/-! ### Path-addressed tree renderer (src/app.js 182-231) -/

/-- Drops `pat` from the front of `l` when `pat` is a prefix, returning the
remainder. -/
def dropSeq : List Char → List Char → Option (List Char)
  | [], l => some l
  | _ :: _, [] => none
  | c :: cs, x :: xs => if c = x then dropSeq cs xs else none

/-- Substring containment on character lists. -/
def containsSeq : List Char → List Char → Bool
  | [], pat => (dropSeq pat []).isSome
  | c :: xs, pat => if (dropSeq pat (c :: xs)).isSome then true else containsSeq xs pat

/-- One character of the string-content escape chain of the renderer
`.replace(/&/g,"&amp;").replace(/</g,"&lt;").replace(/>/g,"&gt;").replace(/"/g,"&quot;")`
(src/app.js 189), realized as a single character-wise pass (the passes touch
disjoint characters, as for the XML escape). -/
def htmlEscapeChar (c : Char) : List Char :=
  if c = '&' then "&amp;".data
  else if c = '<' then "&lt;".data
  else if c = '>' then "&gt;".data
  else if c = '"' then "&quot;".data
  else [c]

def htmlEscape (s : String) : String :=
  String.mk (s.data.flatMap htmlEscapeChar)

mutual

/-- `buildTreeHTML(data, path, isLast)` (src/app.js 182-231).  The source
generates the opaque per-node id with `Math.random()`; the embedding
determinizes that opaque id supply as a counter threaded through the walk
(the id is still generated — and the counter advanced — before the empty
container early return, mirroring the statement order of the source).  `isLast`
is accepted and passed down but never read, exactly as in the source. -/
def buildTreeHTML (data : JValue) (path : String) (isLast : Bool) (n : Nat) :
    String × Nat :=
  match data with
  | .null =>
      ("<span class=\"tree-null\" data-path=\"" ++ path ++ "\">null</span>", n)
  | .str s =>
      ("<span class=\"tree-string\" data-path=\"" ++ path ++ "\">\""
        ++ htmlEscape s ++ "\"</span>", n)
  | .bool b =>
      ("<span class=\"tree-boolean\" data-path=\"" ++ path ++ "\">"
        ++ jsToString (.bool b) ++ "</span>", n)
  | .num m =>
      ("<span class=\"tree-number\" data-path=\"" ++ path ++ "\">"
        ++ jsToString (.num m) ++ "</span>", n)
  | .arr xs =>
      let count := xs.length
      let id := "node-" ++ toString n
      if count = 0 then ("<span class=\"tree-bracket\">[]</span>", n + 1)
      else
        let inner := buildTreeLinesArr xs path 0 count (n + 1)
        ("<span class=\"tree-toggle\" onclick=\"toggleTreeNode(\x27" ++ id
            ++ "\x27)\" id=\"toggle-" ++ id ++ "\">▼</span>"
          ++ "<span class=\"tree-bracket\">[</span>"
          ++ "<span class=\"tree-count\">" ++ toString count ++ " items</span>"
          ++ "<div class=\"tree-node\" id=\"" ++ id ++ "\">"
          ++ inner.1
          ++ "</div><span class=\"tree-bracket\">]</span>", inner.2)
  | .obj kvs =>
      let count := kvs.length
      let id := "node-" ++ toString n
      if count = 0 then ("<span class=\"tree-bracket\">\x7b\x7d</span>", n + 1)
      else
        let inner := buildTreeLinesObj kvs path 0 count (n + 1)
        ("<span class=\"tree-toggle\" onclick=\"toggleTreeNode(\x27" ++ id
            ++ "\x27)\" id=\"toggle-" ++ id ++ "\">▼</span>"
          ++ "<span class=\"tree-bracket\">\x7b</span>"
          ++ "<span class=\"tree-count\">" ++ toString count ++ " keys</span>"
          ++ "<div class=\"tree-node\" id=\"" ++ id ++ "\">"
          ++ inner.1
          ++ "</div><span class=\"tree-bracket\">\x7d</span>", inner.2)
termination_by sizeOf data
decreasing_by
  all_goals (simp; try omega)

/-- The `entries.forEach` loop for a List: numeric keys, child path
`path[index]`, key span styled and unquoted. -/
def buildTreeLinesArr (xs : List JValue) (path : String) (idx count n : Nat) :
    String × Nat :=
  match xs with
  | [] => ("", n)
  | v :: rest =>
      let childPath := path ++ "[" ++ toString idx ++ "]"
      let comma := if idx < count - 1 then "<span class=\"tree-comma\">,</span>" else ""
      let child := buildTreeHTML v childPath (idx = count - 1) n
      let line := "<div class=\"tree-line\">"
        ++ "<span class=\"tree-key\" data-path=\"" ++ childPath
        ++ "\" onclick=\"copyPath(\x27" ++ childPath
        ++ "\x27)\" title=\"Click to copy path\" style=\"color:var(--text-muted);font-size:0.78rem;\">"
        ++ toString idx ++ "</span><span class=\"tree-colon\">:</span> "
        ++ child.1 ++ comma ++ "</div>"
      let restOut := buildTreeLinesArr rest path (idx + 1) count child.2
      (line ++ restOut.1, restOut.2)
termination_by sizeOf xs
decreasing_by
  all_goals (simp; try omega)

/-- The `entries.forEach` loop for an Object: child path `path.key`, the key
interpolated between literal quotes with no escaping. -/
def buildTreeLinesObj (kvs : List (String × JValue)) (path : String)
    (idx count n : Nat) : String × Nat :=
  match kvs with
  | [] => ("", n)
  | (key, v) :: rest =>
      let childPath := path ++ "." ++ key
      let comma := if idx < count - 1 then "<span class=\"tree-comma\">,</span>" else ""
      let child := buildTreeHTML v childPath (idx = count - 1) n
      let line := "<div class=\"tree-line\">"
        ++ "<span class=\"tree-key\" data-path=\"" ++ childPath
        ++ "\" onclick=\"copyPath(\x27" ++ childPath
        ++ "\x27)\" title=\"Click to copy path\">\"" ++ key
        ++ "\"</span><span class=\"tree-colon\">:</span> "
        ++ child.1 ++ comma ++ "</div>"
      let restOut := buildTreeLinesObj rest path (idx + 1) count child.2
      (line ++ restOut.1, restOut.2)
termination_by sizeOf kvs
decreasing_by
  all_goals (simp; try omega)

end

theorem htmlEscapeChar_no_markup (c : Char) :
    ∀ x ∈ htmlEscapeChar c, x ≠ '<' ∧ x ≠ '>' ∧ x ≠ '"' := by
  intro x hx
  rw [htmlEscapeChar] at hx
  by_cases h1 : c = '&'
  · rw [if_pos h1] at hx
    have hx2 : x ∈ ['&', 'a', 'm', 'p', ';'] := hx
    fin_cases hx2 <;> decide
  · rw [if_neg h1] at hx
    by_cases h2 : c = '<'
    · rw [if_pos h2] at hx
      have hx2 : x ∈ ['&', 'l', 't', ';'] := hx
      fin_cases hx2 <;> decide
    · rw [if_neg h2] at hx
      by_cases h3 : c = '>'
      · rw [if_pos h3] at hx
        have hx2 : x ∈ ['&', 'g', 't', ';'] := hx
        fin_cases hx2 <;> decide
      · rw [if_neg h3] at hx
        by_cases h4 : c = '"'
        · rw [if_pos h4] at hx
          have hx2 : x ∈ ['&', 'q', 'u', 'o', 't', ';'] := hx
          fin_cases hx2 <;> decide
        · rw [if_neg h4] at hx
          simp at hx
          subst hx
          exact ⟨h2, h3, h4⟩

set_option maxRecDepth 4000

/-- C10: the renderer escapes the markup characters `&`, `<`, `>`, `"`
inside String leaf values — a string leaf renders as its escaped text, and
the escaped text contains no raw `<`, `>` or `"` — but interpolates Object
keys into the output with no markup escaping: rendering an object whose key
is `a<b` produces a key span whose text still contains the raw `<` (the
output contains the substring `>"a<b"</span>` and no `&lt;` anywhere). -/
theorem renderer_escapes_string_leaves_not_keys :
    (∀ (s path : String) (isLast : Bool) (n : Nat),
      buildTreeHTML (.str s) path isLast n =
        ("<span class=\"tree-string\" data-path=\"" ++ path ++ "\">\""
          ++ htmlEscape s ++ "\"</span>", n))
    ∧ (∀ (s : String), ∀ c ∈ (htmlEscape s).data, c ≠ '<' ∧ c ≠ '>' ∧ c ≠ '"')
    ∧ containsSeq ((buildTreeHTML (.obj [("a<b", .null)]) "$" true 0).1).data
        (">\"a<b\"</span>".data) = true
    ∧ containsSeq ((buildTreeHTML (.obj [("a<b", .null)]) "$" true 0).1).data
        ("&lt;".data) = false := by
  refine ⟨?_, ?_, ?_, ?_⟩
  · intro s path isLast n
    rw [buildTreeHTML]
  · intro s c hc
    rw [htmlEscape] at hc
    have hc2 : c ∈ s.data.flatMap htmlEscapeChar := hc
    rcases List.mem_flatMap.mp hc2 with ⟨x, _, hcx⟩
    exact htmlEscapeChar_no_markup x c hcx
  · rw [buildTreeHTML]
    simp only [List.length_cons, List.length_nil]
    rw [if_neg (by omega)]
    rw [buildTreeLinesObj, buildTreeHTML, buildTreeLinesObj]
    decide
  · rw [buildTreeHTML]
    simp only [List.length_cons, List.length_nil]
    rw [if_neg (by omega)]
    rw [buildTreeLinesObj, buildTreeHTML, buildTreeLinesObj]
    decide

/-- Witness for the renderer escaping theorem at concrete inputs. -/
theorem renderer_escapes_string_leaves_not_keys_witness :
    buildTreeHTML (.str "q\"<x") "$" true 3 =
      ("<span class=\"tree-string\" data-path=\"" ++ "$" ++ "\">\""
        ++ htmlEscape "q\"<x" ++ "\"</span>", 3)
    ∧ ('l' ≠ '<' ∧ 'l' ≠ '>' ∧ 'l' ≠ '"') :=
  ⟨renderer_escapes_string_leaves_not_keys.1 "q\"<x" "$" true 3,
    renderer_escapes_string_leaves_not_keys.2.1 "<" 'l' (by decide)⟩

/-! ### Interface-description transcoder (src/app.js 345-397) -/

/-- The mutable context of the transcoder: the `interfaces` array of emitted
blocks, and the `seen` map of names registered for de-duplication
(insertion-ordered, presence only).  `pushedNames` records, purely as proof
bookkeeping, the `name` argument of each `generateInterface` push in push
order; the pushed block is always the text `interface NAME \x7b...\x7d`, so this
adds no information that is not already in `interfaces`. -/
structure TSState where
  interfaces : List String
  pushedNames : List String
  seen : List String

/-- `/^[a-zA-Z_$][a-zA-Z0-9_$]*$/.test(key)`. -/
def isIdentName (s : String) : Bool :=
  match s.data with
  | [] => false
  | c :: rest =>
      (c.isAlpha || c = '_' || c = '$')
        && rest.all (fun x => x.isAlpha || x.isDigit || x = '_' || x = '$')

/-- `capitalize(str)`: upper-case the first character, strip every
non-alphanumeric character from the rest (ASCII, which covers the inputs that occur here). -/
def capitalizeTS (s : String) : String :=
  match s.data with
  | [] => ""
  | c :: rest => String.mk (c.toUpper :: rest.filter (fun x => x.isAlpha || x.isDigit))

/-- The replace call that drops one trailing `s` from the name. -/
def stripTrailingS (s : String) : String :=
  if s.data.getLast? = some 's' then String.mk s.data.dropLast else s

/-- `typeof value` for the scalar fall-through of `getType` (only
booleans, numbers and strings reach it). -/
def scalarTypeName : JValue → String
  | .bool _ => "boolean"
  | .num _ => "number"
  | .str _ => "string"
  | _ => ""

mutual

/-- `getType(value, name)` (src/app.js 349-366), threading the mutable
context. -/
def getType (value : JValue) (name : String) (st : TSState) : String × TSState :=
  match value with
  | .null => ("null", st)
  | .arr xs =>
      if xs.isEmpty then ("any[]", st)
      else
        let r := getTypeList xs (stripTrailingS name) st
        let u := dedupKeepFirst r.1
        match u with
        | [t] => (t ++ "[]", r.2)
        | _ => ("(" ++ String.intercalate " | " u ++ ")[]", r.2)
  | .obj kvs =>
      let iName := capitalizeTS name
      if st.seen.contains iName then (iName, st)
      else (iName, generateInterface kvs iName { st with seen := st.seen ++ [iName] })
  | .bool b => (scalarTypeName (.bool b), st)
  | .num n => (scalarTypeName (.num n), st)
  | .str s => (scalarTypeName (.str s), st)
termination_by (sizeOf value, 0)
decreasing_by
  all_goals (apply Prod.Lex.left; simp; try omega)

/-- The map of `getType` over the element values with the singularized name,
left to right with
the context threaded through. -/
def getTypeList (xs : List JValue) (name : String) (st : TSState) :
    List String × TSState :=
  match xs with
  | [] => ([], st)
  | v :: rest =>
      let r1 := getType v name st
      let r2 := getTypeList rest name r1.2
      (r1.1 :: r2.1, r2.2)
termination_by (sizeOf xs, 0)
decreasing_by
  all_goals (apply Prod.Lex.left; simp; try omega)

/-- The `Object.entries(obj).forEach` body of `generateInterface`
(src/app.js 374-378): one `  name: type;` line per member, in order. -/
def genFields (kvs : List (String × JValue)) (st : TSState) :
    String × TSState :=
  match kvs with
  | [] => ("", st)
  | (key, value) :: rest =>
      let safeName := if isIdentName key then key else "\"" ++ key ++ "\""
      let r1 := getType value key st
      let r2 := genFields rest r1.2
      ("  " ++ safeName ++ ": " ++ r1.1 ++ ";\n" ++ r2.1, r2.2)
termination_by (sizeOf kvs, 0)
decreasing_by
  all_goals (apply Prod.Lex.left; simp; try omega)

/-- `generateInterface(obj, name)` (src/app.js 372-381): builds the block
and pushes it (the push happens after the fields are processed, so nested
interfaces are pushed before the interface that uses them). -/
def generateInterface (kvs : List (String × JValue)) (name : String)
    (st : TSState) : TSState :=
  let r := genFields kvs st
  { r.2 with
      interfaces := r.2.interfaces ++ ["interface " ++ name ++ " \x7b\n" ++ r.1 ++ "\x7d"],
      pushedNames := r.2.pushedNames ++ [name] }
termination_by (sizeOf kvs, 1)
decreasing_by
  apply Prod.Lex.right; omega

end

/-- The shape of every pushed interface block: the text
`interface NAME \x7b ... \x7d` for the name of the `generateInterface` call that
pushed it. -/
def BlockShape (code name : String) : Prop :=
  ∃ body, code = "interface " ++ name ++ " \x7b\n" ++ body ++ "\x7d"

/-- How a `getType`/`getTypeList`/`genFields` call extends the transcoder
context: blocks, push names and registered names only grow at the end; the
new push names are exactly the newly registered names (as a multiset); new
registrations are distinct and fresh; every new block has the
`interface NAME` shape of its push name. -/
def TSExt (st st2 : TSState) : Prop :=
  ∃ di dp ds,
    st2.interfaces = st.interfaces ++ di ∧
    st2.pushedNames = st.pushedNames ++ dp ∧
    st2.seen = st.seen ++ ds ∧
    dp.Perm ds ∧ ds.Nodup ∧ (∀ x ∈ ds, x ∉ st.seen) ∧
    List.Forall₂ BlockShape di dp

/-- How a `generateInterface kvs name` call extends the context: as `TSExt`,
except that one extra block named `name` is pushed at the very end without
registering `name`. -/
def TSExtPush (st st2 : TSState) (name : String) : Prop :=
  ∃ di dp ds code,
    st2.interfaces = st.interfaces ++ di ++ [code] ∧ BlockShape code name ∧
    st2.pushedNames = st.pushedNames ++ dp ++ [name] ∧
    st2.seen = st.seen ++ ds ∧
    dp.Perm ds ∧ ds.Nodup ∧ (∀ x ∈ ds, x ∉ st.seen) ∧
    List.Forall₂ BlockShape di dp

theorem TSExt_refl (st : TSState) : TSExt st st :=
  ⟨[], [], [], by simp, by simp, by simp, List.Perm.refl [], List.nodup_nil,
    by simp, List.Forall₂.nil⟩

theorem TSExt_trans {st1 st2 st3 : TSState} (h1 : TSExt st1 st2)
    (h2 : TSExt st2 st3) : TSExt st1 st3 := by
  rcases h1 with ⟨di1, dp1, ds1, hi1, hp1, hs1, hperm1, hnd1, hfresh1, hshape1⟩
  rcases h2 with ⟨di2, dp2, ds2, hi2, hp2, hs2, hperm2, hnd2, hfresh2, hshape2⟩
  refine ⟨di1 ++ di2, dp1 ++ dp2, ds1 ++ ds2, ?_, ?_, ?_, ?_, ?_, ?_, ?_⟩
  · rw [hi2, hi1, List.append_assoc]
  · rw [hp2, hp1, List.append_assoc]
  · rw [hs2, hs1, List.append_assoc]
  · exact hperm1.append hperm2
  · rw [List.nodup_append]
    refine ⟨hnd1, hnd2, ?_⟩
    intro x hx1 hx2
    exact hfresh2 x hx2 (by rw [hs1]; exact List.mem_append_right _ hx1)
  · intro x hx
    rcases List.mem_append.mp hx with h | h
    · exact hfresh1 x h
    · intro hmem
      exact hfresh2 x h (by rw [hs1]; exact List.mem_append_left _ hmem)
  · exact List.rel_append hshape1 hshape2

theorem tsExt_all : ∀ n : Nat,
    (∀ (v : JValue) (name : String) (st : TSState), sizeOf v ≤ n →
      TSExt st (getType v name st).2)
    ∧ (∀ (xs : List JValue) (name : String) (st : TSState), sizeOf xs ≤ n →
      TSExt st (getTypeList xs name st).2)
    ∧ (∀ (kvs : List (String × JValue)) (st : TSState), sizeOf kvs ≤ n →
      TSExt st (genFields kvs st).2)
    ∧ (∀ (kvs : List (String × JValue)) (name : String) (st : TSState),
      sizeOf kvs ≤ n → TSExtPush st (generateInterface kvs name st) name) := by
  intro n
  induction n using Nat.strong_induction_on with
  | _ n ih =>
    have hP4 : ∀ m, m < n →
        ∀ (kvs : List (String × JValue)) (name : String) (st : TSState),
        sizeOf kvs ≤ m → TSExtPush st (generateInterface kvs name st) name :=
      fun m hm => (ih m hm).2.2.2
    have hP1 : ∀ m, m < n → ∀ (v : JValue) (name : String) (st : TSState),
        sizeOf v ≤ m → TSExt st (getType v name st).2 :=
      fun m hm => (ih m hm).1
    have hP2 : ∀ m, m < n → ∀ (xs : List JValue) (name : String) (st : TSState),
        sizeOf xs ≤ m → TSExt st (getTypeList xs name st).2 :=
      fun m hm => (ih m hm).2.1
    have hP3 : ∀ m, m < n → ∀ (kvs : List (String × JValue)) (st : TSState),
        sizeOf kvs ≤ m → TSExt st (genFields kvs st).2 :=
      fun m hm => (ih m hm).2.2.1
    have p1 : ∀ (v : JValue) (name : String) (st : TSState), sizeOf v ≤ n →
        TSExt st (getType v name st).2 := by
      intro v name st hv
      cases v with
      | null => rw [getType]; exact TSExt_refl st
      | bool b => rw [getType]; exact TSExt_refl st
      | num m => rw [getType]; exact TSExt_refl st
      | str s => rw [getType]; exact TSExt_refl st
      | arr xs =>
        rw [getType]
        by_cases he : xs.isEmpty
        · rw [if_pos he]; exact TSExt_refl st
        · rw [if_neg he]
          have hsz : sizeOf xs < n := by
            have : sizeOf (JValue.arr xs) = 1 + sizeOf xs := by simp
            omega
          have h2 := hP2 (sizeOf xs) hsz xs (stripTrailingS name) st le_rfl
          cases hu : dedupKeepFirst (getTypeList xs (stripTrailingS name) st).1 with
          | nil => simpa [hu] using h2
          | cons t ts =>
            cases ts with
            | nil => simpa [hu] using h2
            | cons t2 ts2 => simpa [hu] using h2
      | obj kvs =>
        rw [getType]
        by_cases hc : st.seen.contains (capitalizeTS name)
        · rw [if_pos hc]; exact TSExt_refl st
        · rw [if_neg hc]
          have hszk : sizeOf kvs < n := by
            have : sizeOf (JValue.obj kvs) = 1 + sizeOf kvs := by simp
            omega
          have hpush := hP4 (sizeOf kvs) hszk kvs (capitalizeTS name)
            { st with seen := st.seen ++ [capitalizeTS name] } le_rfl
          rcases hpush with ⟨di, dp, ds, code, hi, hcode, hp, hs, hperm, hnd, hfresh, hshape⟩
          have hiNameFresh : capitalizeTS name ∉ st.seen := by simpa using hc
          have hiNameNotDs : capitalizeTS name ∉ ds := by
            intro hmem
            exact hfresh _ hmem (by simp)
          refine ⟨di ++ [code], dp ++ [capitalizeTS name],
            capitalizeTS name :: ds, ?_, ?_, ?_, ?_, ?_, ?_, ?_⟩
          · rw [hi]; simp
          · rw [hp]; simp
          · rw [hs]; simp
          · exact List.Perm.trans List.perm_append_comm (List.Perm.cons _ hperm)
          · exact List.nodup_cons.mpr ⟨hiNameNotDs, hnd⟩
          · intro x hx
            rcases List.mem_cons.mp hx with h | h
            · rw [h]; exact hiNameFresh
            · intro hmem
              exact hfresh x h (by simp [hmem])
          · exact List.rel_append hshape (List.forall₂_cons.mpr ⟨hcode, List.Forall₂.nil⟩)
    have p2 : ∀ (xs : List JValue) (name : String) (st : TSState), sizeOf xs ≤ n →
        TSExt st (getTypeList xs name st).2 := by
      intro xs name st hxs
      cases xs with
      | nil => rw [getTypeList]; exact TSExt_refl st
      | cons v rest =>
        rw [getTypeList]
        have hszc : sizeOf (v :: rest) = 1 + sizeOf v + sizeOf rest := by simp
        exact TSExt_trans (p1 v name st (by omega))
          (hP2 (sizeOf rest) (by omega) rest name _ le_rfl)
    have p3 : ∀ (kvs : List (String × JValue)) (st : TSState), sizeOf kvs ≤ n →
        TSExt st (genFields kvs st).2 := by
      intro kvs st hkvs
      cases kvs with
      | nil => rw [genFields]; exact TSExt_refl st
      | cons kv rest =>
        cases kv with
        | mk key value =>
          rw [genFields]
          have hszc : sizeOf ((key, value) :: rest)
              = 1 + (1 + sizeOf key + sizeOf value) + sizeOf rest := by simp
          exact TSExt_trans (p1 value key st (by omega))
            (hP3 (sizeOf rest) (by omega) rest _ le_rfl)
    have p4 : ∀ (kvs : List (String × JValue)) (name : String) (st : TSState),
        sizeOf kvs ≤ n → TSExtPush st (generateInterface kvs name st) name := by
      intro kvs name st hkvs
      rw [generateInterface]
      rcases p3 kvs st hkvs with ⟨di, dp, ds, hi, hp, hs, hperm, hnd, hfresh, hshape⟩
      exact ⟨di, dp, ds,
        "interface " ++ name ++ " \x7b\n" ++ (genFields kvs st).1 ++ "\x7d",
        by simp [hi], ⟨(genFields kvs st).1, rfl⟩, by simp [hp], hs,
        hperm, hnd, hfresh, hshape⟩
    exact ⟨p1, p2, p3, p4⟩

/-- `Object.entries(x)` for the values that can reach the top-level
`generateInterface` call: the members of a plain object, or the index-keyed
entries of an array; other values never reach it. -/
def jsEntries : JValue → List (String × JValue)
  | .obj kvs => kvs
  | .arr xs => xs.enum.map (fun p => (toString p.1, p.2))
  | _ => []

/-- The guard testing that `typeof x` is "object" and `x` is not null. -/
def isObjTypeof (v : JValue) : Bool :=
  typeofJs v == "object" && !(isNullJ v)

/-- `jsonToTypeScript(data, interfaceName)` (src/app.js 345-397): the
top-level dispatch.  A non-empty array whose first element passes the
object-typeof guard generates interfaces from that first element only and
appends the `NameList` alias; any other array becomes a `type` alias through
`getType` (whose interface pushes are discarded, as in the source, where the
return statement ignores the `interfaces` array); a non-null object
generates interfaces; anything else becomes `type name = typeof data;`. -/
def jsonToTypeScript (data : JValue) (interfaceName : String) : String :=
  match data with
  | .arr xs =>
      if !xs.isEmpty && isObjTypeof (xs.headD .null) then
        let st := generateInterface (jsEntries (xs.headD .null)) interfaceName ⟨[], [], []⟩
        String.intercalate "\n\n" st.interfaces.reverse
          ++ "\n\ntype " ++ interfaceName ++ "List = " ++ interfaceName ++ "[];"
      else
        "type " ++ interfaceName ++ " = "
          ++ (getType (.arr xs) interfaceName ⟨[], [], []⟩).1 ++ ";"
  | .obj kvs =>
      let st := generateInterface kvs interfaceName ⟨[], [], []⟩
      String.intercalate "\n\n" st.interfaces.reverse
  | .null => "type " ++ interfaceName ++ " = " ++ typeofJs .null ++ ";"
  | .bool b => "type " ++ interfaceName ++ " = " ++ typeofJs (.bool b) ++ ";"
  | .num n => "type " ++ interfaceName ++ " = " ++ typeofJs (.num n) ++ ";"
  | .str s => "type " ++ interfaceName ++ " = " ++ typeofJs (.str s) ++ ";"

/-- C9: for a non-empty top-level List whose first element is an Object, the
interface-description output is determined entirely by that first element:
two such lists with the same first element produce identical outputs
whatever their later elements are — the elements at indices 1 and beyond are
never inspected. -/
theorem ts_list_output_determined_by_first_element
    (kvs : List (String × JValue)) (rest rest2 : List JValue) (name : String) :
    jsonToTypeScript (.arr (.obj kvs :: rest)) name
      = jsonToTypeScript (.arr (.obj kvs :: rest2)) name := rfl

/-- Number of positions of `l` at which `pat` occurs as a prefix. -/
def countSeq : List Char → List Char → Nat
  | [], pat => if (dropSeq pat []).isSome then 1 else 0
  | c :: xs, pat => (if (dropSeq pat (c :: xs)).isSome then 1 else 0) + countSeq xs pat

/-- C4 counterexample: the claim asserts one named interface block per
generated interface name.  But the top-level `generateInterface` call never
registers the root name in `seen`, so a nested Object whose field name
capitalizes to the root name produces a second block with the same name:
on `\x7b"root": \x7b"x": 1\x7d\x7d` with root name `Root` the output contains two
`interface Root` blocks. -/
theorem ts_duplicate_root_name_counterexample :
    jsonToTypeScript (.obj [("root", .obj [("x", .num 1)])]) "Root"
      = "interface Root \x7b\n  root: Root;\n\x7d\n\ninterface Root \x7b\n  x: number;\n\x7d"
    ∧ countSeq ("interface Root \x7b\n  root: Root;\n\x7d\n\ninterface Root \x7b\n  x: number;\n\x7d").data
        ("interface Root \x7b".data) = 2 := by
  constructor
  · simp +decide [jsonToTypeScript, generateInterface, genFields, getType, getTypeList]
  · decide

/-- C4 amended: on an Object input the transcoder emits the interface blocks
accumulated by appending each interface when its generation completes (so
nested interfaces are appended before the interface that uses them), then
reversing the list before joining; every block is an `interface NAME` block
for the name of the call that pushed it, the root interface is the last
pushed (hence first in the output); the push names are, as a multiset, the
root name plus exactly the registered names, which are pairwise distinct —
so interfaces discovered through field types are de-duplicated by generated
name, the first shape encountered winning with no conflict report — while
the root name itself is not registered and may be duplicated by a nested
shape.  Concretely, on `\x7b"a": \x7b"p": 1\x7d, "A": \x7b"q": true\x7d\x7d` the second
shape mapping to the name `A` produces no second block and the first
first-seen shape with `p: number` wins. -/
theorem ts_interface_emission_amended
    (kvs : List (String × JValue)) (name : String) :
    (jsonToTypeScript (.obj kvs) name = String.intercalate "\n\n"
      (generateInterface kvs name ⟨[], [], []⟩).interfaces.reverse)
    ∧ (generateInterface kvs name ⟨[], [], []⟩).pushedNames.dropLast.Nodup
    ∧ (generateInterface kvs name ⟨[], [], []⟩).pushedNames.getLast? = some name
    ∧ List.Forall₂ BlockShape (generateInterface kvs name ⟨[], [], []⟩).interfaces
        (generateInterface kvs name ⟨[], [], []⟩).pushedNames
    ∧ (generateInterface kvs name ⟨[], [], []⟩).pushedNames.Perm
        (name :: (generateInterface kvs name ⟨[], [], []⟩).seen)
    ∧ jsonToTypeScript (.obj [("a", .obj [("p", .num 1)]), ("A", .obj [("q", .bool true)])]) "Root"
        = "interface Root \x7b\n  a: A;\n  A: A;\n\x7d\n\ninterface A \x7b\n  p: number;\n\x7d" := by
  have hpush := (tsExt_all (sizeOf kvs)).2.2.2 kvs name ⟨[], [], []⟩ le_rfl
  rcases hpush with ⟨di, dp, ds, code, hi, hcode, hp, hs, hperm, hnd, hfresh, hshape⟩
  simp only [TSState.interfaces] at hi
  simp only [TSState.pushedNames] at hp
  simp only [TSState.seen] at hs
  rw [List.nil_append] at hi hp hs
  refine ⟨?_, ?_, ?_, ?_, ?_, ?_⟩
  · rw [jsonToTypeScript]
  · rw [hp, List.dropLast_concat]
    exact hperm.symm.nodup hnd
  · rw [hp, List.getLast?_concat]
  · rw [hi, hp]
    exact List.rel_append hshape (List.forall₂_cons.mpr ⟨hcode, List.Forall₂.nil⟩)
  · rw [hp, hs]
    exact List.Perm.trans List.perm_append_comm (List.Perm.cons _ hperm)
  · simp +decide [jsonToTypeScript, generateInterface, genFields, getType, getTypeList]

/-! ### Token classifier (src/app.js 160-179) -/

/-- JavaScript `\s` for the whitespace characters that occur in serialized
JSON text (space, tab, newline, carriage return, vertical tab, form feed). -/
def isJsWs (c : Char) : Bool :=
  c = ' ' || c = '\t' || c = '\n' || c = '\r' || c = '\x0b' || c = '\x0c'

/-- JavaScript `\w` (word character), for the `\b` boundaries around the
`true`/`false`/`null` literals. -/
def isWordChar (c : Char) : Bool :=
  c.isAlpha || c.isDigit || c = '_'

/-- The body of the quoted-string alternative
`(\\u[a-zA-Z0-9]\x7b4\x7d|\\[^u]|[^\\"])*"` after the opening quote: returns the
consumed characters (closing quote included) and the remainder.  The
alternation is deterministic — at each position exactly one unit can start —
so the backtracking regex semantics coincide with this single pass: when a
`\u` escape lacks four alphanumerics, or a lone backslash or the end of
input is reached before a closing quote, no backtracking can rescue the
match and the whole alternative fails. -/
def strBody : List Char → Option (List Char × List Char)
  | [] => none
  | '"' :: r => some (['"'], r)
  | '\\' :: 'u' :: a :: b :: c :: d :: r =>
      if a.isAlphanum && b.isAlphanum && c.isAlphanum && d.isAlphanum then
        (strBody r).map (fun pr => ('\\' :: 'u' :: a :: b :: c :: d :: pr.1, pr.2))
      else none
  | '\\' :: x :: r =>
      if x = 'u' then none
      else (strBody r).map (fun pr => ('\\' :: x :: pr.1, pr.2))
  | c :: r =>
      if c = '\\' then none
      else (strBody r).map (fun pr => (c :: pr.1, pr.2))

/-- The full quoted-string alternative `"(...)*"(\s*:)?`: the optional
whitespace-then-colon is consumed greedily into the match when present. -/
def matchStringTok : List Char → Option (List Char × List Char)
  | [] => none
  | c :: r =>
      if c = '"' then
        (strBody r).map (fun pr =>
          let tok := '"' :: pr.1
          let ws := pr.2.takeWhile isJsWs
          match pr.2.drop ws.length with
          | ':' :: r2 => (tok ++ ws ++ [':'], r2)
          | _ => (tok, pr.2))
      else none

/-- One literal of `\b(true|false|null)\b` at the current position: the
literal must be followed by a non-word character (the boundary before it is
checked by the caller). -/
def litHere (lit : List Char) (l : List Char) : Option (List Char × List Char) :=
  match dropSeq lit l with
  | some r =>
      match r with
      | [] => some (lit, [])
      | c :: _ => if isWordChar c then none else some (lit, r)
  | none => none

def matchLit (l : List Char) : Option (List Char × List Char) :=
  match litHere "true".data l with
  | some res => some res
  | none =>
      match litHere "false".data l with
      | some res => some res
      | none => litHere "null".data l

/-- The numeric alternative `-?\d+(?:\.\d*)?(?:[eE][+\-]?\d+)?`, greedy with
the two optional groups dropped when they cannot complete (an exponent
marker without digits is not consumed). -/
def matchNumber (l : List Char) : Option (List Char × List Char) :=
  let neg : List Char := match l with | '-' :: _ => ['-'] | _ => []
  let l1 := l.drop neg.length
  let ds := l1.takeWhile Char.isDigit
  if ds.isEmpty then none
  else
    let l2 := l1.drop ds.length
    let frac : List Char := match l2 with
      | '.' :: r => '.' :: r.takeWhile Char.isDigit
      | _ => []
    let l3 := l2.drop frac.length
    let ex : List Char := match l3 with
      | e :: r =>
          if e = 'e' || e = 'E' then
            let sgn : List Char := match r with
              | c :: _ => if c = '+' || c = '-' then [c] else []
              | [] => []
            let ed := (r.drop sgn.length).takeWhile Char.isDigit
            if ed.isEmpty then [] else e :: (sgn ++ ed)
          else []
      | [] => []
    let l4 := l3.drop ex.length
    some (neg ++ ds ++ frac ++ ex, l4)

/-- One attempt of the combined pattern at the current position, trying the
alternatives in the order of the regex: quoted string, word-bounded literal,
number.  `prev` is the character before the position (for the leading
`\b`). -/
def tryMatch (prev : Option Char) (l : List Char) : Option (List Char × List Char) :=
  match matchStringTok l with
  | some res => some res
  | none =>
      let boundaryOk := match prev with
        | none => true
        | some c => !isWordChar c
      match (if boundaryOk then matchLit l else none) with
      | some res => some res
      | none => matchNumber l

/-- The class choice of the replacement callback (src/app.js 167-175): default
`json-number`; a match starting with a quote is `json-key` when it ends with
a colon, else `json-string`; otherwise a match containing `true` or `false`
is `json-boolean` and one containing `null` is `json-null`. -/
def clsOf (tok : List Char) : String :=
  if tok.headD ' ' = '"' then
    if tok.getLastD ' ' = ':' then "json-key" else "json-string"
  else if containsSeq tok "true".data || containsSeq tok "false".data then
    "json-boolean"
  else if containsSeq tok "null".data then "json-null"
  else "json-number"

/-- `<span class="CLS">MATCH</span>`. -/
def spanWrap (tok : List Char) : List Char :=
  ("<span class=\"" ++ clsOf tok ++ "\">").data ++ tok ++ "</span>".data

/-- The left-to-right global-replace scan: at each position the combined
pattern is tried; a match is wrapped and the scan resumes after it,
otherwise the character passes through.  The fuel starts at the input
length, which every step strictly shrinks, so it never runs out. -/
def scanAux : Nat → Option Char → List Char → List Char
  | 0, _, _ => []
  | _ + 1, _, [] => []
  | fuel + 1, prev, c :: rest =>
      match tryMatch prev (c :: rest) with
      | some res => spanWrap res.1 ++ scanAux fuel res.1.getLast? res.2
      | none => c :: scanAux fuel (some c) rest

/-- `syntaxHighlight(json)` (src/app.js 160-179) on string input (the
`JSON.stringify` branch for non-string input is outside the scope of the claims):
first the whole input is escaped for `&`, `<`, `>` — the same three-pass
chain as the XML transcoder, realized by `xmlEscapeChar` — then every match
of the combined lexical pattern is replaced by a classified span. -/
def syntaxHighlight (json : String) : String :=
  let escaped := json.data.flatMap xmlEscapeChar
  String.mk (scanAux escaped.length none escaped)

theorem strBody_shape : ∀ (r body rest : List Char), strBody r = some (body, rest) →
    ∃ mid, body = mid ++ ['"'] := by
  intro r
  induction r using strBody.induct with
  | case1 => intro body rest h; rw [strBody] at h; exact absurd h (by simp)
  | case2 r =>
      intro body rest h
      rw [strBody] at h
      simp at h
      exact ⟨[], by simp_all⟩
  | case3 a b c d r halnum ih =>
      intro body rest h
      rw [strBody, if_pos halnum] at h
      cases hsb : strBody r with
      | none => rw [hsb] at h; exact absurd h (by simp)
      | some pr =>
        rw [hsb] at h
        simp at h
        rcases ih pr.1 pr.2 (by rw [hsb]) with ⟨mid, hmid⟩
        exact ⟨'\\' :: 'u' :: a :: b :: c :: d :: mid, by simp_all⟩
  | case4 a b c d r halnum =>
      intro body rest h
      rw [strBody, if_neg halnum] at h
      exact absurd h (by simp)
  | case5 =>
      intro body rest h
      rw [strBody] at h <;> first
        | (exact absurd h (by simp))
        | assumption
  | case6 x r hex3 hxu ih =>
      intro body rest h
      rw [strBody] at h <;> try assumption
      rw [if_neg hxu] at h
      cases hsb : strBody r with
      | none => rw [hsb] at h; exact absurd h (by simp)
      | some pr =>
        rw [hsb] at h
        simp at h
        rcases ih pr.1 pr.2 (by rw [hsb]) with ⟨mid, hmid⟩
        exact ⟨'\\' :: x :: mid, by simp_all⟩
  | case7 =>
      intro body rest h
      rw [strBody] at h <;> first
        | (exact absurd h (by simp))
        | assumption
  | case8 c r hq hex3 hex4 hbs ih =>
      intro body rest h
      rw [strBody] at h <;> try assumption
      rw [if_neg hbs] at h
      cases hsb : strBody r with
      | none => rw [hsb] at h; exact absurd h (by simp)
      | some pr =>
        rw [hsb] at h
        simp at h
        rcases ih pr.1 pr.2 (by rw [hsb]) with ⟨mid, hmid⟩
        exact ⟨c :: mid, by simp_all⟩

theorem dropSeq_mem : ∀ (pat l r : List Char), dropSeq pat l = some r →
    ∀ c ∈ pat, c ∈ l := by
  intro pat
  induction pat with
  | nil => intro l r h c hc; simp at hc
  | cons p ps ih =>
    intro l r h c hc
    cases l with
    | nil => rw [dropSeq] at h; exact absurd h (by simp)
    | cons x xs =>
      rw [dropSeq] at h
      by_cases hpx : p = x
      · rw [if_pos hpx] at h
        rcases List.mem_cons.mp hc with h1 | h1
        · rw [h1, hpx]; simp
        · exact List.mem_cons_of_mem _ (ih xs r h c h1)
      · rw [if_neg hpx] at h
        exact absurd h (by simp)

theorem containsSeq_mem : ∀ (l pat : List Char), containsSeq l pat = true →
    ∀ c ∈ pat, c ∈ l := by
  intro l
  induction l with
  | nil =>
    intro pat h c hc
    rw [containsSeq] at h
    cases pat with
    | nil => simp at hc
    | cons p ps => rw [dropSeq] at h; simp at h
  | cons x xs ih =>
    intro pat h c hc
    rw [containsSeq] at h
    cases hds : dropSeq pat (x :: xs) with
    | some r => exact dropSeq_mem pat (x :: xs) r hds c hc
    | none =>
      rw [hds] at h
      simp at h
      exact List.mem_cons_of_mem _ (ih pat h c hc)

/-- Claim side: the shape of a quoted-string match. -/
def IsQuotedTok (q : List Char) : Prop :=
  ∃ mid, q = '"' :: (mid ++ ['"'])

/-- Claim side (amended): the shape of a key match — a quoted string, an
optional whitespace run, and the colon, all absorbed into one match. -/
def IsKeyTok (tok : List Char) : Prop :=
  ∃ q ws, IsQuotedTok q ∧ (∀ c ∈ ws, isJsWs c = true) ∧ tok = q ++ ws ++ [':']

theorem getLastD_append_single (l : List Char) (a d : Char) :
    (l ++ [a]).getLastD d = a := by
  rw [List.getLastD_eq_getLast?, List.getLast?_concat]
  rfl

theorem matchStringTok_shape : ∀ (l tok rest : List Char),
    matchStringTok l = some (tok, rest) → IsKeyTok tok ∨ IsQuotedTok tok := by
  intro l tok rest h
  cases l with
  | nil => rw [matchStringTok] at h; exact absurd h (by simp)
  | cons c r =>
    rw [matchStringTok] at h
    by_cases hc : c = '"'
    · rw [if_pos hc] at h
      cases hsb : strBody r with
      | none => rw [hsb] at h; exact absurd h (by simp)
      | some pr =>
        rw [hsb] at h
        simp only [Option.map_some', Option.some.injEq] at h
        obtain ⟨mid, hmid⟩ := strBody_shape r pr.1 pr.2 (by rw [hsb])
        split at h
        · left
          refine ⟨'"' :: pr.1, pr.2.takeWhile isJsWs, ⟨mid, by rw [hmid]⟩,
            fun x hx => List.mem_takeWhile_imp hx, ?_⟩
          have := (Prod.mk.injEq _ _ _ _).mp h
          exact this.1.symm
        · right
          have := (Prod.mk.injEq _ _ _ _).mp h
          exact ⟨mid, by rw [← this.1, hmid]⟩
    · rw [if_neg hc] at h
      exact absurd h (by simp)

theorem clsOf_of_keyTok : ∀ tok : List Char, IsKeyTok tok → clsOf tok = "json-key" := by
  intro tok h
  rcases h with ⟨q, ws, ⟨mid, hq⟩, hws, htok⟩
  subst hq
  subst htok
  rw [clsOf]
  have hhead : ((('"' :: (mid ++ ['"'])) ++ ws ++ [':']).headD ' ') = '"' := by simp
  have hlast : ((('"' :: (mid ++ ['"'])) ++ ws ++ [':']).getLastD ' ') = ':' :=
    getLastD_append_single _ _ _
  rw [if_pos hhead, if_pos hlast]

theorem clsOf_of_quotedTok : ∀ tok : List Char, IsQuotedTok tok →
    clsOf tok = "json-string" := by
  intro tok h
  rcases h with ⟨mid, hq⟩
  subst hq
  rw [clsOf]
  have hhead : (('"' :: (mid ++ ['"'])).headD ' ') = '"' := rfl
  have hlast : (('"' :: (mid ++ ['"'])).getLastD ' ') = '"' := by
    rw [show ('"' :: (mid ++ ['"'])) = ('"' :: mid) ++ ['"'] by simp,
      getLastD_append_single]
  rw [if_pos hhead, if_neg (by rw [hlast]; decide)]

theorem clsOf_of_numberTok : ∀ tok : List Char, tok ≠ [] →
    (∀ c ∈ tok, c.isDigit = true ∨ c = '-' ∨ c = '.' ∨ c = 'e' ∨ c = 'E' ∨ c = '+') →
    clsOf tok = "json-number" := by
  intro tok hne hall
  have hhead : ¬ (tok.headD ' ' = '"') := by
    cases tok with
    | nil => exact absurd rfl hne
    | cons c rest =>
      rw [List.headD_cons]
      rcases hall c (by simp) with h | h | h | h | h | h
      · intro he; rw [he] at h; exact absurd h (by decide)
      all_goals (rw [h]; decide)
  have htrue : containsSeq tok "true".data = false := by
    cases hcon : containsSeq tok "true".data with
    | false => rfl
    | true =>
      have hr := containsSeq_mem tok _ hcon 'r' (by decide)
      rcases hall 'r' hr with h | h | h | h | h | h <;> exact absurd h (by decide)
  have hfalse : containsSeq tok "false".data = false := by
    cases hcon : containsSeq tok "false".data with
    | false => rfl
    | true =>
      have hr := containsSeq_mem tok _ hcon 'f' (by decide)
      rcases hall 'f' hr with h | h | h | h | h | h <;> exact absurd h (by decide)
  have hnull : containsSeq tok "null".data = false := by
    cases hcon : containsSeq tok "null".data with
    | false => rfl
    | true =>
      have hr := containsSeq_mem tok _ hcon 'n' (by decide)
      rcases hall 'n' hr with h | h | h | h | h | h <;> exact absurd h (by decide)
  rw [clsOf, if_neg hhead, if_neg (by simp [htrue, hfalse]), if_neg (by simp [hnull])]

/-- C8 amended: the token classifier wraps each quoted-string match that is
followed by a colon — immediately or after a run of whitespace, both
absorbed into the match — in the key tag, every other quoted-string match
in the string tag, the literals `true`/`false` in the boolean tag, `null`
in the null tag, and numeric matches in the number tag; every token the
quoted-string alternative produces has one of the two string shapes; and in
particular classifying the input `"key": 5` marks `"key":` as a key token and `5` as
a number token. -/
theorem classifier_tagging_amended :
    (∀ tok : List Char, IsKeyTok tok → clsOf tok = "json-key")
    ∧ (∀ tok : List Char, IsQuotedTok tok → clsOf tok = "json-string")
    ∧ (clsOf "true".data = "json-boolean" ∧ clsOf "false".data = "json-boolean"
        ∧ clsOf "null".data = "json-null")
    ∧ (∀ tok : List Char, tok ≠ [] →
        (∀ c ∈ tok, c.isDigit = true ∨ c = '-' ∨ c = '.' ∨ c = 'e' ∨ c = 'E' ∨ c = '+') →
        clsOf tok = "json-number")
    ∧ (∀ l tok rest : List Char, matchStringTok l = some (tok, rest) →
        IsKeyTok tok ∨ IsQuotedTok tok)
    ∧ syntaxHighlight "\"key\": 5"
        = "<span class=\"json-key\">\"key\":</span> <span class=\"json-number\">5</span>"
    ∧ syntaxHighlight "\"a\" : 1"
        = "<span class=\"json-key\">\"a\" :</span> <span class=\"json-number\">1</span>" :=
  ⟨clsOf_of_keyTok, clsOf_of_quotedTok, ⟨by decide, by decide, by decide⟩,
    clsOf_of_numberTok, matchStringTok_shape, by decide, by decide⟩

/-- C8 counterexample: the claim keys only quoted strings immediately
followed by a colon and demands the string tag for every other quoted
string.  On the input `"a" : 1` the only quoted string is separated from
its colon by a space, so the claim requires a `json-string` span, yet the
classifier absorbs the whitespace and colon into the match (the regex
allows `\s*` before the colon) and tags it `json-key`: the output contains
no `json-string` span at all. -/
theorem classifier_immediate_colon_counterexample :
    syntaxHighlight "\"a\" : 1"
      = "<span class=\"json-key\">\"a\" :</span> <span class=\"json-number\">1</span>"
    ∧ containsSeq ("<span class=\"json-key\">\"a\" :</span> <span class=\"json-number\">1</span>").data
        "json-string".data = false :=
  ⟨by decide, by decide⟩

/-- Witness for the amended classifier theorem at concrete tokens. -/
theorem classifier_tagging_amended_witness :
    clsOf ("\"a\" :".data) = "json-key"
    ∧ clsOf ("\"a\"".data) = "json-string"
    ∧ clsOf ("-1.5e+2".data) = "json-number"
    ∧ (IsKeyTok ("\"k\":".data) ∨ IsQuotedTok ("\"k\":".data)) :=
  ⟨classifier_tagging_amended.1 _ ⟨"\"a\"".data, [' '], ⟨['a'], rfl⟩, by decide, rfl⟩,
   classifier_tagging_amended.2.1 _ ⟨['a'], rfl⟩,
   classifier_tagging_amended.2.2.2.1 _ (by decide) (by decide),
   classifier_tagging_amended.2.2.2.2.1 ("\"k\":".data) ("\"k\":".data) [] (by decide)⟩
